import Mathlib

/-!
# Verification of the technical-analysis core of binance-mcp-enhanced

Shallow embedding of `src/technical-analysis.ts` (the market-structure
analyzer, trend detection and price statistics) together with
spec-modelled definitions for the indicator functions that are delegated
to the external `technicalindicators` npm package.

Numbers: JavaScript `number` values that stay finite are modelled as
exact rationals (`ℚ`); the price-statistics module, where NaN and the
infinities are observable behaviour, is modelled over an explicit
`JSNum` type with JavaScript's arithmetic on NaN and ±∞.
-/

namespace BinanceTA

/-- OHLCV candle record, from `interface OHLCV` in technical-analysis.ts.
`open` is a Lean keyword, so the field is written `«open»`. -/
structure OHLCV where
  «open» : ℚ
  high : ℚ
  low : ℚ
  close : ℚ
  volume : ℚ
  timestamp : ℤ
deriving DecidableEq, Repr, Inhabited

/-- The two kinds of levels: `'support' | 'resistance'`. -/
inductive LevelType where
  | support : LevelType
  | resistance : LevelType
deriving DecidableEq, Repr

/-- A support/resistance level `{ price; type; strength }`. -/
structure Level where
  price : ℚ
  type : LevelType
  strength : ℕ
deriving DecidableEq, Repr

/-! ## Local-extremum candidate detection (findSupportResistance, lines 124-150)

The outer JS loop runs `i` from `lookback` while `i < length - lookback`;
the inner loop scans `j` from `i - lookback` to `i + lookback` and clears
`isLocalMax` on the first `j ≠ i` with `highs[j] >= highs[i]`. -/

/-- Inner loop of the local-maximum test: scan the index list `js`,
returning `false` as soon as some `j ≠ i` has `highs[j] ≥ highs[i]`
(the JS `break`), and `true` if the scan completes. -/
def maxLoop (highs : List ℚ) (i : ℕ) : List ℕ → Bool
  | [] => true
  | j :: js =>
    if j ≠ i ∧ highs.getD j 0 ≥ highs.getD i 0 then false
    else maxLoop highs i js

/-- Inner loop of the local-minimum test: scan the index list `js`,
returning `false` as soon as some `j ≠ i` has `lows[j] ≤ lows[i]`. -/
def minLoop (lows : List ℚ) (i : ℕ) : List ℕ → Bool
  | [] => true
  | j :: js =>
    if j ≠ i ∧ lows.getD j 0 ≤ lows.getD i 0 then false
    else minLoop lows i js

/-- Indices `i` for which the resistance scan fires: `i` ranges over
`[lookback, length - lookback)` and the whole window `[i-L, i+L]` is
scanned by `maxLoop`. -/
def resIndices (highs : List ℚ) (L : ℕ) : List ℕ :=
  (List.range' L (highs.length - L - L)).filter
    (fun i => maxLoop highs i (List.range' (i - L) (2 * L + 1)))

/-- Indices `i` for which the support scan fires. -/
def supIndices (lows : List ℚ) (L : ℕ) : List ℕ :=
  (List.range' L (lows.length - L - L)).filter
    (fun i => minLoop lows i (List.range' (i - L) (2 * L + 1)))

/-- Resistance candidates, pushed in scan order with strength 1. -/
def resLevels (highs : List ℚ) (L : ℕ) : List Level :=
  (resIndices highs L).map (fun i => ⟨highs.getD i 0, LevelType.resistance, 1⟩)

/-- Support candidates, pushed in scan order with strength 1. -/
def supLevels (lows : List ℚ) (L : ℕ) : List Level :=
  (supIndices lows L).map (fun i => ⟨lows.getD i 0, LevelType.support, 1⟩)

/-! ## Clustering (findSupportResistance, lines 152-164) -/

/-- `Math.abs` on a finite value. -/
def jabs (x : ℚ) : ℚ := if x < 0 then -x else x

/-- The JS merge test `Math.abs(l.price - level.price) / level.price < threshold`
for an existing cluster price `clPrice` against candidate price `candPrice`.
When `candPrice = 0` the JS division yields `Infinity` or `NaN`, neither of
which is `< threshold`, so the test is false; that case is made explicit
because rational division by zero would otherwise return 0. -/
def mergeCond (T : ℚ) (clPrice candPrice : ℚ) : Bool :=
  if candPrice = 0 then false else decide (jabs (clPrice - candPrice) / candPrice < T)

/-- Replace the element at position `n` by `f` of it (the in-place mutation
of the found cluster object in the JS `reduce`). -/
def updateAt (n : ℕ) (f : Level → Level) : List Level → List Level
  | [] => []
  | y :: ys =>
    match n with
    | 0 => f y :: ys
    | Nat.succ m => y :: updateAt m f ys

/-- Index of the first element satisfying `p` (the JS `Array.prototype.find`
position). -/
def firstIdx (p : Level → Bool) : List Level → Option ℕ
  | [] => none
  | y :: ys => if p y then some 0 else (firstIdx p ys).map (fun k => k + 1)

/-- One step of the clustering `reduce`: find the first cluster passing the
merge test; if found, increment its strength and re-average its price,
otherwise push a copy of the candidate. -/
def clusterStep (T : ℚ) (acc : List Level) (level : Level) : List Level :=
  match firstIdx (fun l => mergeCond T l.price level.price) acc with
  | some k =>
      updateAt k (fun l => { l with strength := l.strength + 1,
                                    price := (l.price + level.price) / 2 }) acc
  | none => acc ++ [level]

/-- The clustering `reduce` over the candidate list, starting from `[]`. -/
def clusterLevels (T : ℚ) (levels : List Level) : List Level :=
  levels.foldl (clusterStep T) []

/-! ## Sorting (findSupportResistance, line 166)

`clustered.sort((a, b) => b.strength - a.strength)` sorts descending by
strength; `Array.prototype.sort` is stable per the ECMAScript language
specification, so equal strengths keep their order. Stable descending
sort is embedded as insertion sort that inserts an element strictly
before the first element of not-larger strength. -/

/-- Insert `x` after every element of strictly larger strength
(stable position for a descending sort). -/
def insertLevel (x : Level) : List Level → List Level
  | [] => [x]
  | y :: ys => if x.strength < y.strength then y :: insertLevel x ys else x :: y :: ys

/-- Stable sort, descending by strength. -/
def sortLevels : List Level → List Level
  | [] => []
  | x :: xs => insertLevel x (sortLevels xs)

/-- `findSupportResistance(ohlcv, lookback, threshold)`: detect resistance
then support candidates, cluster them in that scan order, and sort the
clusters descending by strength. -/
def findSupportResistance (ohlcv : List OHLCV) (lookback : ℕ) (threshold : ℚ) :
    List Level :=
  let highs := ohlcv.map (fun d => d.high)
  let lows := ohlcv.map (fun d => d.low)
  sortLevels (clusterLevels threshold (resLevels highs lookback ++ supLevels lows lookback))

/-! ## JavaScript number arithmetic for the statistics module

`calculatePriceStats` observably produces NaN and ±Infinity (division by a
zero standard deviation, `Math.max()` of an empty spread), so it is modelled
over an explicit JS-number type: NaN, the two infinities, and finite values
as exact rationals. The negative-zero/positive-zero distinction is not
modelled; it is unobservable in this code (no division by a computed value
that can be −0 with a different result, and `-0 < x` iff `0 < x`). -/

inductive JSNum where
  | nan : JSNum
  | inf : Bool → JSNum
  | fin : ℚ → JSNum
deriving DecidableEq, Repr

namespace JSNum

/-- JS addition: NaN absorbs; opposite infinities give NaN. -/
def add : JSNum → JSNum → JSNum
  | nan, _ => nan
  | _, nan => nan
  | inf a, inf b => if a = b then inf a else nan
  | inf a, fin _ => inf a
  | fin _, inf b => inf b
  | fin p, fin q => fin (p + q)

/-- JS unary negation. -/
def neg : JSNum → JSNum
  | nan => nan
  | inf b => inf (!b)
  | fin q => fin (-q)

/-- JS subtraction `x - y` (equals `x + (-y)` in every case). -/
def sub (x y : JSNum) : JSNum := add x (neg y)

/-- JS multiplication: NaN absorbs; infinity times zero is NaN; signs combine. -/
def mul : JSNum → JSNum → JSNum
  | nan, _ => nan
  | _, nan => nan
  | inf a, inf b => inf (a = b)
  | inf a, fin q => if q = 0 then nan else inf (a = decide (0 < q))
  | fin q, inf b => if q = 0 then nan else inf (b = decide (0 < q))
  | fin p, fin q => fin (p * q)

/-- JS division: NaN absorbs; ∞/∞ is NaN; finite/∞ is 0; finite/0 is
NaN when the numerator is 0, else a signed infinity (0 divides as +0). -/
def div : JSNum → JSNum → JSNum
  | nan, _ => nan
  | _, nan => nan
  | inf _, inf _ => nan
  | inf a, fin q => inf (a = decide (0 ≤ q))
  | fin _, inf _ => fin 0
  | fin p, fin q =>
    if q = 0 then (if p = 0 then nan else inf (decide (0 < p)))
    else fin (p / q)

/-- JS `<`: false whenever either side is NaN. -/
def lt : JSNum → JSNum → Bool
  | nan, _ => false
  | _, nan => false
  | inf a, inf b => !a && b
  | inf a, fin _ => !a
  | fin _, inf b => b
  | fin p, fin q => decide (p < q)

/-- `Math.max` on two values: NaN if either argument is NaN. -/
def max (x y : JSNum) : JSNum :=
  match x, y with
  | nan, _ => nan
  | _, nan => nan
  | a, b => if lt a b then b else a

/-- `Math.min` on two values: NaN if either argument is NaN. -/
def min (x y : JSNum) : JSNum :=
  match x, y with
  | nan, _ => nan
  | _, nan => nan
  | a, b => if lt b a then b else a

end JSNum

/-- Exact square root of a rational: `some r` when `q = r²` with `r ≥ 0`. -/
def ratSqrt? (q : ℚ) : Option ℚ :=
  if q.num < 0 then none
  else
    let ns := Nat.sqrt q.num.toNat
    let ds := Nat.sqrt q.den
    if ns * ns = q.num.toNat ∧ ds * ds = q.den then some ((ns : ℚ) / (ds : ℚ))
    else none

/-- A computable realization of `Math.sqrt` used to instantiate witnesses:
it agrees with `Math.sqrt` on NaN, the infinities, negatives, and every
rational whose square root is exact (in particular 0), and returns NaN on
the remaining (irrational-root) inputs where the double result would be
inexact anyway. -/
def jsqrt : JSNum → JSNum
  | JSNum.nan => JSNum.nan
  | JSNum.inf b => if b then JSNum.inf true else JSNum.nan
  | JSNum.fin q =>
    if q < 0 then JSNum.nan
    else match ratSqrt? q with
      | some r => JSNum.fin r
      | none => JSNum.nan

/-- Result record of `calculatePriceStats`. -/
structure Stats where
  avgReturn : JSNum
  stdDev : JSNum
  sharpeRatio : JSNum
  maxReturn : JSNum
  minReturn : JSNum
  winRate : JSNum
deriving DecidableEq, Repr

/-- `calculatePriceStats(ohlcv)` (lines 193-211), parametrised by the
runtime's `Math.sqrt`. `returns = closes.slice(1).map((close, i) =>
(close - closes[i]) / closes[i] * 100)`; the means are `reduce` folds
divided by `returns.length`; `Math.pow(x, 2)` is `x * x`;
`Math.max(...returns)` / `Math.min(...returns)` fold from −∞ / +∞. -/
def calculatePriceStats (sqrt : JSNum → JSNum) (ohlcv : List OHLCV) : Stats :=
  let closes := ohlcv.map (fun d => JSNum.fin d.close)
  let returns := List.zipWith
    (fun close prev => JSNum.mul (JSNum.div (JSNum.sub close prev) prev) (JSNum.fin 100))
    (closes.drop 1) closes
  let len : JSNum := JSNum.fin (returns.length : ℚ)
  let avgReturn := JSNum.div (returns.foldl JSNum.add (JSNum.fin 0)) len
  let variance := JSNum.div
    (returns.foldl (fun a b => JSNum.add a (JSNum.mul (JSNum.sub b avgReturn) (JSNum.sub b avgReturn)))
      (JSNum.fin 0)) len
  let stdDev := sqrt variance
  { avgReturn := avgReturn
    stdDev := stdDev
    sharpeRatio := JSNum.mul (JSNum.div avgReturn stdDev) (sqrt (JSNum.fin 252))
    maxReturn := returns.foldl JSNum.max (JSNum.inf false)
    minReturn := returns.foldl JSNum.min (JSNum.inf true)
    winRate := JSNum.mul
      (JSNum.div (JSNum.fin ((returns.filter (fun r => JSNum.lt (JSNum.fin 0) r)).length : ℚ)) len)
      (JSNum.fin 100) }

/-- The statistics as the specification words them (claim C5): the return
series is indexed, rᵢ = (closeᵢ − closeᵢ₋₁)/closeᵢ₋₁ × 100 for
1 ≤ i ≤ n−1; avgReturn is the mean of r; the variance is the mean of the
squared deviations (divide by the number of returns); stdDev its square
root; sharpeRatio = avgReturn/stdDev × √252; winRate the percentage of
returns strictly above 0; maxReturn/minReturn the extrema of the
(nonempty) return series. -/
def specPriceStats (sqrt : JSNum → JSNum) (ohlcv : List OHLCV) : Stats :=
  let n := ohlcv.length
  let closeAt : ℕ → JSNum := fun i => JSNum.fin ((ohlcv.getD i default).close)
  let r := (List.range (n - 1)).map
    (fun i => JSNum.mul (JSNum.div (JSNum.sub (closeAt (i + 1)) (closeAt i)) (closeAt i))
      (JSNum.fin 100))
  let m : JSNum := JSNum.fin (r.length : ℚ)
  let avgReturn := JSNum.div (r.foldl JSNum.add (JSNum.fin 0)) m
  let variance := JSNum.div
    ((r.map (fun x => JSNum.mul (JSNum.sub x avgReturn) (JSNum.sub x avgReturn))).foldl
      JSNum.add (JSNum.fin 0)) m
  let stdDev := sqrt variance
  { avgReturn := avgReturn
    stdDev := stdDev
    sharpeRatio := JSNum.mul (JSNum.div avgReturn stdDev) (sqrt (JSNum.fin 252))
    maxReturn := match r with
      | [] => JSNum.inf false
      | x :: xs => xs.foldl JSNum.max x
    minReturn := match r with
      | [] => JSNum.inf true
      | x :: xs => xs.foldl JSNum.min x
    winRate := JSNum.mul
      (JSNum.div (JSNum.fin ((r.countP (fun x => JSNum.lt (JSNum.fin 0) x)) : ℚ)) m)
      (JSNum.fin 100) }

/-! ## Indicator models

`calculateSMA`/`calculateEMA`/`calculateRSI` in technical-analysis.ts
delegate to `SMA.calculate`/`EMA.calculate`/`RSI.calculate` of the external
`technicalindicators` package, whose code is not part of this repository;
they are modelled from the specification (§4.2). -/

/-- Modelled from the spec: `SMA.calculate` of the `technicalindicators`
package is not in this repository. Per §4.2, SMA(values, period) is the
arithmetic mean of the trailing `period` window at each index ≥ period−1,
output length n − p + 1 for n ≥ p, and empty when period > length or
period ≤ 0. -/
def calculateSMA (values : List ℚ) (period : ℕ) : List ℚ :=
  if period = 0 then []
  else (List.range (values.length + 1 - period)).map
    (fun i => ((values.drop i).take period).sum / (period : ℚ))

/-- Modelled from the spec: `EMA.calculate` of the `technicalindicators`
package is not in this repository. Per §4.2, EMA(values, period) is
exponential smoothing with factor k = 2/(period+1), seeded from the SMA of
the first `period` values; with fewer than `period` samples the result is
empty. -/
def calculateEMA (values : List ℚ) (period : ℕ) : List ℚ :=
  if period = 0 ∨ values.length < period then []
  else
    let k : ℚ := 2 / ((period : ℚ) + 1)
    let seed : ℚ := ((values.take period).sum) / (period : ℚ)
    (values.drop period).foldl
      (fun acc v => acc ++ [(v - acc.getLast!) * k + acc.getLast!]) [seed]

/-- Modelled from the spec: `RSI.calculate` of the `technicalindicators`
package is not in this repository. Per §4.2, RSI(values, period) is the
average-gain/average-loss transform bounded to [0,100], via Wilder
smoothing of the period-over-period differences; with insufficient samples
(fewer differences than `period`) the result is empty. Rational division
by a zero average loss yields 0 here; the claims checked against this
model depend only on when the output is empty. -/
def calculateRSI (values : List ℚ) (period : ℕ) : List ℚ :=
  if period = 0 then []
  else
    let diffs := List.zipWith (fun a b => a - b) (values.drop 1) values
    if diffs.length < period then []
    else
      let gain : ℚ → ℚ := fun d => if 0 < d then d else 0
      let loss : ℚ → ℚ := fun d => if d < 0 then -d else 0
      let seedG := ((diffs.take period).map gain).sum / (period : ℚ)
      let seedL := ((diffs.take period).map loss).sum / (period : ℚ)
      let rsiOf : ℚ → ℚ → ℚ := fun g l => 100 - 100 / (1 + g / l)
      let step : (ℚ × ℚ × List ℚ) → ℚ → (ℚ × ℚ × List ℚ) := fun s d =>
        let g := (s.1 * ((period : ℚ) - 1) + gain d) / (period : ℚ)
        let l := (s.2.1 * ((period : ℚ) - 1) + loss d) / (period : ℚ)
        (g, l, s.2.2 ++ [rsiOf g l])
      ((diffs.drop period).foldl step (seedG, seedL, [rsiOf seedG seedL])).2.2

/-- `detectTrend(prices, shortPeriod, longPeriod)` (lines 172-188): take the
last element of each SMA series (`undefined` when the series is empty) and
compare. The JS guard `if (!recentShort || !recentLong) return 'unknown'`
is falsy-based: it fires when a value is `undefined` *or* equal to 0. -/
def detectTrend (prices : List ℚ) (shortPeriod longPeriod : ℕ) : String :=
  match (calculateSMA prices shortPeriod).getLast?, (calculateSMA prices longPeriod).getLast? with
  | some s, some l =>
    if s = 0 ∨ l = 0 then "unknown"
    else if l < s then "bullish"
    else if s < l then "bearish"
    else "neutral"
  | _, _ => "unknown"

/-- Trend detection as claim C2 words it: "unknown" exactly when at least
one of the two SMAs has no defined value, and otherwise the comparison of
the two most recent defined SMA values (no falsy test on 0). -/
def claimTrend (prices : List ℚ) (shortPeriod longPeriod : ℕ) : String :=
  match (calculateSMA prices shortPeriod).getLast?, (calculateSMA prices longPeriod).getLast? with
  | some s, some l =>
    if l < s then "bullish"
    else if s < l then "bearish"
    else "neutral"
  | _, _ => "unknown"

/-- Amended trend contract, computed directly from the closes: with the
default periods 20 and 50, the result is "unknown" iff fewer than 50
closes are supplied (either SMA undefined) or the trailing 20-mean or
trailing 50-mean equals 0 (JS falsy zero); otherwise the trailing 20-mean
is compared with the trailing 50-mean. -/
def amendedTrend (prices : List ℚ) : String :=
  if prices.length < 50 then "unknown"
  else if (prices.drop (prices.length - 20)).sum / 20 = 0 ∨
      (prices.drop (prices.length - 50)).sum / 50 = 0 then "unknown"
  else if (prices.drop (prices.length - 50)).sum / 50 <
      (prices.drop (prices.length - 20)).sum / 20 then "bullish"
  else if (prices.drop (prices.length - 20)).sum / 20 <
      (prices.drop (prices.length - 50)).sum / 50 then "bearish"
  else "neutral"

/-- The clustering step as claim C3 words it: a candidate merges into the
first existing cluster whose price differs from the candidate's price by
less than `threshold` times the candidate's price; merging averages the
prices and increments the strength; otherwise a new cluster with
strength 1 is opened. -/
def claimClusterStep (T : ℚ) (acc : List Level) (level : Level) : List Level :=
  match firstIdx (fun l => decide (jabs (l.price - level.price) < T * level.price)) acc with
  | some k =>
      updateAt k (fun l => { l with strength := l.strength + 1,
                                    price := (l.price + level.price) / 2 }) acc
  | none => acc ++ [{ level with strength := 1 }]

/-- Clustering as claim C3 words it, over the candidate list in scan order. -/
def claimClusterLevels (T : ℚ) (levels : List Level) : List Level :=
  levels.foldl (claimClusterStep T) []

/-- Strict-maximum window predicate from the spec (claim C4): the window
`[i−L, i+L]` lies inside the sequence and `highs[i]` strictly exceeds
every other entry of the window. -/
def IsStrictWindowMax (highs : List ℚ) (L i : ℕ) : Prop :=
  L ≤ i ∧ i + L < highs.length ∧
    ∀ j, i - L ≤ j → j ≤ i + L → j ≠ i → highs.getD j 0 < highs.getD i 0

/-- Strict-minimum window predicate from the spec (claim C4). -/
def IsStrictWindowMin (lows : List ℚ) (L i : ℕ) : Prop :=
  L ≤ i ∧ i + L < lows.length ∧
    ∀ j, i - L ≤ j → j ≤ i + L → j ≠ i → lows.getD i 0 < lows.getD j 0

/-! ## Lemmas: extremum detection -/

/-- The early-exit maximum scan succeeds iff every scanned index is the
centre or strictly below the centre value. -/
theorem maxLoop_eq_true_iff (highs : List ℚ) (i : ℕ) (js : List ℕ) :
    maxLoop highs i js = true ↔
      ∀ j ∈ js, j ≠ i → highs.getD j 0 < highs.getD i 0 := by
  induction js with
  | nil => simp [maxLoop]
  | cons j js ih =>
    by_cases h : j ≠ i ∧ highs.getD j 0 ≥ highs.getD i 0
    · simp only [maxLoop, if_pos h]
      constructor
      · intro hfalse; cases hfalse
      · intro hall
        exact absurd (hall j (by simp) h.1) (not_lt.mpr h.2)
    · simp only [maxLoop, if_neg h, ih]
      push_neg at h
      constructor
      · intro hall k hk hki
        rcases List.mem_cons.mp hk with rfl | hk'
        · exact lt_of_not_le (fun hle => (h hki).not_le hle)
        · exact hall k hk' hki
      · intro hall k hk hki
        exact hall k (List.mem_cons_of_mem _ hk) hki

/-- The early-exit minimum scan succeeds iff every scanned index is the
centre or strictly above the centre value. -/
theorem minLoop_eq_true_iff (lows : List ℚ) (i : ℕ) (js : List ℕ) :
    minLoop lows i js = true ↔
      ∀ j ∈ js, j ≠ i → lows.getD i 0 < lows.getD j 0 := by
  induction js with
  | nil => simp [minLoop]
  | cons j js ih =>
    by_cases h : j ≠ i ∧ lows.getD j 0 ≤ lows.getD i 0
    · simp only [minLoop, if_pos h]
      constructor
      · intro hfalse; cases hfalse
      · intro hall
        exact absurd (hall j (by simp) h.1) (not_lt.mpr h.2)
    · simp only [minLoop, if_neg h, ih]
      push_neg at h
      constructor
      · intro hall k hk hki
        rcases List.mem_cons.mp hk with rfl | hk'
        · exact lt_of_not_le (fun hle => (h hki).not_le hle)
        · exact hall k hk' hki
      · intro hall k hk hki
        exact hall k (List.mem_cons_of_mem _ hk) hki

/-- Membership in the resistance index list is exactly the spec's
strict-window-maximum property. -/
theorem mem_resIndices_iff (highs : List ℚ) (L i : ℕ) :
    i ∈ resIndices highs L ↔ IsStrictWindowMax highs L i := by
  unfold resIndices IsStrictWindowMax
  rw [List.mem_filter, List.mem_range'_1, maxLoop_eq_true_iff]
  constructor
  · rintro ⟨⟨hL, hup⟩, hwin⟩
    refine ⟨hL, by omega, fun j hlo hhi hne => ?_⟩
    exact hwin j (by rw [List.mem_range'_1]; omega) hne
  · rintro ⟨hL, hup, hwin⟩
    refine ⟨⟨hL, by omega⟩, fun j hj hne => ?_⟩
    rw [List.mem_range'_1] at hj
    exact hwin j (by omega) (by omega) hne

/-- Membership in the support index list is exactly the spec's
strict-window-minimum property. -/
theorem mem_supIndices_iff (lows : List ℚ) (L i : ℕ) :
    i ∈ supIndices lows L ↔ IsStrictWindowMin lows L i := by
  unfold supIndices IsStrictWindowMin
  rw [List.mem_filter, List.mem_range'_1, minLoop_eq_true_iff]
  constructor
  · rintro ⟨⟨hL, hup⟩, hwin⟩
    refine ⟨hL, by omega, fun j hlo hhi hne => ?_⟩
    exact hwin j (by rw [List.mem_range'_1]; omega) hne
  · rintro ⟨hL, hup, hwin⟩
    refine ⟨⟨hL, by omega⟩, fun j hj hne => ?_⟩
    rw [List.mem_range'_1] at hj
    exact hwin j (by omega) (by omega) hne

/-- Sequences shorter than `2L+1` yield no scan indices. -/
theorem resIndices_eq_nil_of_short (highs : List ℚ) (L : ℕ)
    (h : highs.length < 2 * L + 1) : resIndices highs L = [] := by
  unfold resIndices
  have : highs.length - L - L = 0 := by omega
  rw [this]
  rfl

/-- Sequences shorter than `2L+1` yield no scan indices (support side). -/
theorem supIndices_eq_nil_of_short (lows : List ℚ) (L : ℕ)
    (h : lows.length < 2 * L + 1) : supIndices lows L = [] := by
  unfold supIndices
  have : lows.length - L - L = 0 := by omega
  rw [this]
  rfl

/-- C4: in `findSupportResistance` with lookback `L`, index `i` yields a
resistance candidate (with price `highs[i]`) iff `highs[i]` is the strict
maximum of the window `[i−L, i+L]` of the highs, symmetrically a support
candidate when `lows[i]` is the strict minimum of its window of the lows,
and an input of length below `2·L+1` produces an empty output. -/
theorem fsr_candidate_characterization (ohlcv : List OHLCV) (L i : ℕ) (T : ℚ) :
    (i ∈ resIndices (ohlcv.map (fun d => d.high)) L ↔
       IsStrictWindowMax (ohlcv.map (fun d => d.high)) L i) ∧
    (resLevels (ohlcv.map (fun d => d.high)) L =
       (resIndices (ohlcv.map (fun d => d.high)) L).map
         (fun k => ⟨(ohlcv.map (fun d => d.high)).getD k 0, LevelType.resistance, 1⟩)) ∧
    (i ∈ supIndices (ohlcv.map (fun d => d.low)) L ↔
       IsStrictWindowMin (ohlcv.map (fun d => d.low)) L i) ∧
    (supLevels (ohlcv.map (fun d => d.low)) L =
       (supIndices (ohlcv.map (fun d => d.low)) L).map
         (fun k => ⟨(ohlcv.map (fun d => d.low)).getD k 0, LevelType.support, 1⟩)) ∧
    (ohlcv.length < 2 * L + 1 → findSupportResistance ohlcv L T = []) := by
  refine ⟨mem_resIndices_iff _ _ _, rfl, mem_supIndices_iff _ _ _, rfl, fun hshort => ?_⟩
  show sortLevels (clusterLevels T
    (resLevels (ohlcv.map (fun d => d.high)) L ++ supLevels (ohlcv.map (fun d => d.low)) L)) = []
  unfold resLevels supLevels
  rw [resIndices_eq_nil_of_short _ _ (by simpa using hshort),
      supIndices_eq_nil_of_short _ _ (by simpa using hshort)]
  rfl

/-- Witness for C4 at a concrete input: five candles with lookback 3 give
an empty level list, and index 2 with lookback 1 is characterised. -/
theorem fsr_candidate_characterization_witness :
    findSupportResistance
      [⟨1, 1, 1, 1, 0, 0⟩, ⟨1, 2, 2, 1, 0, 1⟩, ⟨1, 5, 3, 1, 0, 2⟩,
       ⟨1, 4, 4, 1, 0, 3⟩, ⟨1, 3, 5, 1, 0, 4⟩] 3 (1/50) = [] :=
  (fsr_candidate_characterization
    [⟨1, 1, 1, 1, 0, 0⟩, ⟨1, 2, 2, 1, 0, 1⟩, ⟨1, 5, 3, 1, 0, 2⟩,
     ⟨1, 4, 4, 1, 0, 3⟩, ⟨1, 3, 5, 1, 0, 4⟩] 3 2 (1/50)).2.2.2.2 (by decide)

/-! ## Lemmas: clustering -/

/-- `firstIdx` finds nothing iff no element satisfies the predicate. -/
theorem firstIdx_eq_none_iff (p : Level → Bool) (l : List Level) :
    firstIdx p l = none ↔ ∀ a ∈ l, p a = false := by
  induction l with
  | nil => simp [firstIdx]
  | cons y ys ih =>
    by_cases hy : p y
    · simp [firstIdx, hy]
    · simp [firstIdx, hy, ih]

/-- Folding the clustering step over a list none of whose elements merges
into the accumulator or into an earlier list element just appends the list. -/
theorem foldl_clusterStep_of_separated (T : ℚ) (ls : List Level) :
    ∀ acc : List Level,
      (∀ a ∈ acc, ∀ b ∈ ls, mergeCond T a.price b.price = false) →
      List.Pairwise (fun a b => mergeCond T a.price b.price = false) ls →
      List.foldl (clusterStep T) acc ls = acc ++ ls := by
  induction ls with
  | nil => intro acc _ _; simp
  | cons x xs ih =>
    intro acc hacc hpw
    have hx : firstIdx (fun l => mergeCond T l.price x.price) acc = none := by
      rw [firstIdx_eq_none_iff]
      intro a ha
      exact hacc a ha x (List.mem_cons_self _ _)
    have hstep : clusterStep T acc x = acc ++ [x] := by
      unfold clusterStep
      rw [hx]
    rw [List.foldl_cons, hstep, ih (acc ++ [x]) ?_ (List.Pairwise.of_cons hpw)]
    · simp
    · intro a ha b hb
      rcases List.mem_append.mp ha with ha' | ha'
      · exact hacc a ha' b (List.mem_cons_of_mem _ hb)
      · have : a = x := by simpa using ha'
        subst this
        exact (List.pairwise_cons.mp hpw).1 b hb

/-- C1 (amended): the clustering step is a fixpoint on a level list that is
pairwise non-mergeable — no later level passes the merge test against an
earlier one. (As originally stated the claim is false: merging re-averages
cluster prices, which can move a cluster to within threshold of another
cluster of the same output, so re-clustering merges further; see the
counterexample.) -/
theorem clusterLevels_fixpoint_of_separated (T : ℚ) (ls : List Level)
    (hsep : List.Pairwise (fun a b => mergeCond T a.price b.price = false) ls) :
    clusterLevels T ls = ls := by
  unfold clusterLevels
  simpa using foldl_clusterStep_of_separated T ls [] (by simp) hsep

/-- Witness for C1 (amended) at a concrete clustered list: two levels more
than 2 % apart are left unchanged by re-clustering. -/
theorem clusterLevels_fixpoint_of_separated_witness :
    List.Pairwise
      (fun a b => mergeCond (1/50) a.price b.price = false)
      ([⟨100, LevelType.resistance, 2⟩, ⟨200, LevelType.support, 1⟩] : List Level) ∧
    clusterLevels (1/50)
      [⟨100, LevelType.resistance, 2⟩, ⟨200, LevelType.support, 1⟩] =
      [⟨100, LevelType.resistance, 2⟩, ⟨200, LevelType.support, 1⟩] :=
  ⟨by norm_num [List.pairwise_cons, mergeCond, jabs],
   clusterLevels_fixpoint_of_separated (1/50)
     [⟨100, LevelType.resistance, 2⟩, ⟨200, LevelType.support, 1⟩]
     (by norm_num [List.pairwise_cons, mergeCond, jabs])⟩

/-- Counterexample to C1 as stated: the list produced by clustering the
candidates 100, 103, 101, 102 at threshold 0.02 (namely
`[{price 101.25, strength 3}, {price 103, strength 1}]`) is not a fixpoint
of the clustering step — the two merges into the first cluster moved its
price from 100 to 101.25, which is within 2 % of 103, so re-clustering
merges again. -/
theorem clusterLevels_not_idempotent :
    clusterLevels (1/50)
        [⟨100, LevelType.resistance, 1⟩, ⟨103, LevelType.resistance, 1⟩,
         ⟨101, LevelType.resistance, 1⟩, ⟨102, LevelType.resistance, 1⟩] =
      [⟨405/4, LevelType.resistance, 3⟩, ⟨103, LevelType.resistance, 1⟩] ∧
    clusterLevels (1/50)
        (clusterLevels (1/50)
          [⟨100, LevelType.resistance, 1⟩, ⟨103, LevelType.resistance, 1⟩,
           ⟨101, LevelType.resistance, 1⟩, ⟨102, LevelType.resistance, 1⟩]) ≠
      clusterLevels (1/50)
        [⟨100, LevelType.resistance, 1⟩, ⟨103, LevelType.resistance, 1⟩,
         ⟨101, LevelType.resistance, 1⟩, ⟨102, LevelType.resistance, 1⟩] := by
  have h1 : clusterLevels (1/50)
      [⟨100, LevelType.resistance, 1⟩, ⟨103, LevelType.resistance, 1⟩,
       ⟨101, LevelType.resistance, 1⟩, ⟨102, LevelType.resistance, 1⟩] =
      [⟨405/4, LevelType.resistance, 3⟩, ⟨103, LevelType.resistance, 1⟩] := by
    norm_num [clusterLevels, clusterStep, firstIdx, mergeCond, jabs, updateAt]
  refine ⟨h1, ?_⟩
  rw [h1]
  norm_num [clusterLevels, clusterStep, firstIdx, mergeCond, jabs, updateAt]

/-- On a candidate of positive price, the code's merge test (divide the
absolute difference by the candidate price) agrees with the claim's
relative-distance reading (absolute difference below threshold times the
candidate price). -/
theorem mergeCond_eq_claim_of_pos (T : ℚ) (clPrice candPrice : ℚ)
    (h : 0 < candPrice) :
    mergeCond T clPrice candPrice =
      decide (jabs (clPrice - candPrice) < T * candPrice) := by
  unfold mergeCond
  rw [if_neg (ne_of_gt h)]
  congr 1
  rw [eq_iff_iff, div_lt_iff₀ h, mul_comm]

/-- One clustering step agrees with the claim's wording whenever the
candidate has positive price and strength 1. -/
theorem clusterStep_eq_claim (T : ℚ) (acc : List Level) (x : Level)
    (hpos : 0 < x.price) (hstr : x.strength = 1) :
    clusterStep T acc x = claimClusterStep T acc x := by
  unfold clusterStep claimClusterStep
  have hpred : (fun l : Level => decide (jabs (l.price - x.price) < T * x.price)) =
      (fun l : Level => mergeCond T l.price x.price) := by
    funext l
    exact (mergeCond_eq_claim_of_pos T l.price x.price hpos).symm
  rw [hpred]
  cases hf : firstIdx (fun l => mergeCond T l.price x.price) acc with
  | some k => rfl
  | none =>
    show acc ++ [x] = acc ++ [{ x with strength := 1 }]
    congr 1
    cases x
    simp_all

/-- C3 (amended): clustering merges each candidate into the first cluster
within relative distance `threshold` of the candidate's price, averaging
prices and incrementing strength, else opens a strength-1 cluster —
provided every candidate has positive price (for a candidate of
non-positive price the code's signed division disagrees with the claim's
`|difference| < threshold · price` reading) and carries strength 1 (as
every detected extremum candidate does). -/
theorem clusterLevels_eq_claim (T : ℚ) (ls : List Level)
    (hpos : ∀ l ∈ ls, 0 < l.price) (hstr : ∀ l ∈ ls, l.strength = 1) :
    clusterLevels T ls = claimClusterLevels T ls := by
  unfold clusterLevels claimClusterLevels
  suffices h : ∀ acc : List Level,
      List.foldl (clusterStep T) acc ls = List.foldl (claimClusterStep T) acc ls from
    h []
  induction ls with
  | nil => intro acc; rfl
  | cons x xs ih =>
    intro acc
    rw [List.foldl_cons, List.foldl_cons,
        clusterStep_eq_claim T acc x (hpos x (List.mem_cons_self _ _))
          (hstr x (List.mem_cons_self _ _))]
    exact ih (fun l hl => hpos l (List.mem_cons_of_mem _ hl))
      (fun l hl => hstr l (List.mem_cons_of_mem _ hl)) _

/-- Witness for C3 (amended) at a concrete input: candidates at 100 and
101 (positive prices, strength 1) cluster identically under the code's
test and the claim's relative-distance test. -/
theorem clusterLevels_eq_claim_witness :
    (∀ l ∈ ([⟨100, LevelType.resistance, 1⟩, ⟨101, LevelType.support, 1⟩] : List Level),
        0 < l.price) ∧
    clusterLevels (1/50) [⟨100, LevelType.resistance, 1⟩, ⟨101, LevelType.support, 1⟩] =
      claimClusterLevels (1/50)
        [⟨100, LevelType.resistance, 1⟩, ⟨101, LevelType.support, 1⟩] :=
  ⟨by norm_num,
   clusterLevels_eq_claim (1/50)
     [⟨100, LevelType.resistance, 1⟩, ⟨101, LevelType.support, 1⟩]
     (by norm_num) (by norm_num)⟩

/-- Counterexample to C3 as stated: two extremum candidates at price −1
with threshold 0.02. The claim's merge condition
`|cluster − candidate| < threshold · candidate` is unsatisfiable for a
negative candidate price, so the claimed clustering keeps two clusters,
but the code computes `|cluster − candidate| / candidate = 0/(−1) < 0.02`
and merges them into one cluster of strength 2. -/
theorem clusterLevels_ne_claim_on_negative_price :
    clusterLevels (1/50)
        [⟨-1, LevelType.resistance, 1⟩, ⟨-1, LevelType.resistance, 1⟩] =
      [⟨-1, LevelType.resistance, 2⟩] ∧
    claimClusterLevels (1/50)
        [⟨-1, LevelType.resistance, 1⟩, ⟨-1, LevelType.resistance, 1⟩] =
      [⟨-1, LevelType.resistance, 1⟩, ⟨-1, LevelType.resistance, 1⟩] ∧
    clusterLevels (1/50)
        [⟨-1, LevelType.resistance, 1⟩, ⟨-1, LevelType.resistance, 1⟩] ≠
      claimClusterLevels (1/50)
        [⟨-1, LevelType.resistance, 1⟩, ⟨-1, LevelType.resistance, 1⟩] := by
  refine ⟨?_, ?_, ?_⟩ <;>
    norm_num [clusterLevels, claimClusterLevels, clusterStep, claimClusterStep,
      firstIdx, mergeCond, jabs, updateAt]

/-! ## Lemmas: sorting -/

/-- Membership through stable insertion. -/
theorem mem_insertLevel (x z : Level) (l : List Level) :
    z ∈ insertLevel x l ↔ z = x ∨ z ∈ l := by
  induction l with
  | nil => simp [insertLevel]
  | cons y ys ih =>
    by_cases h : x.strength < y.strength
    · simp only [insertLevel, if_pos h, List.mem_cons, ih]
      tauto
    · simp only [insertLevel, if_neg h, List.mem_cons]

/-- Stable insertion preserves sortedness (descending by strength). -/
theorem sorted_insertLevel (x : Level) (l : List Level)
    (hl : List.Sorted (fun a b : Level => b.strength ≤ a.strength) l) :
    List.Sorted (fun a b : Level => b.strength ≤ a.strength) (insertLevel x l) := by
  induction l with
  | nil => simp [insertLevel]
  | cons y ys ih =>
    rw [List.sorted_cons] at hl
    by_cases h : x.strength < y.strength
    · rw [insertLevel, if_pos h, List.sorted_cons]
      refine ⟨fun b hb => ?_, ih hl.2⟩
      rcases (mem_insertLevel x b ys).mp hb with rfl | hb'
      · exact le_of_lt h
      · exact hl.1 b hb'
    · rw [insertLevel, if_neg h, List.sorted_cons]
      refine ⟨fun b hb => ?_, List.sorted_cons.mpr hl⟩
      rcases List.mem_cons.mp hb with rfl | hb'
      · exact le_of_not_lt h
      · exact le_trans (hl.1 b hb') (le_of_not_lt h)

/-- The embedded stable sort produces a list sorted descending by strength. -/
theorem sorted_sortLevels (l : List Level) :
    List.Sorted (fun a b : Level => b.strength ≤ a.strength) (sortLevels l) := by
  induction l with
  | nil => simp [sortLevels]
  | cons x xs ih => exact sorted_insertLevel x (sortLevels xs) ih

/-- Inserting an element whose strength is not `s` does not change the
sublist of strength-`s` elements. -/
theorem filter_insertLevel_of_ne (x : Level) (l : List Level) (s : ℕ)
    (hx : x.strength ≠ s) :
    (insertLevel x l).filter (fun l => decide (l.strength = s)) =
      l.filter (fun l => decide (l.strength = s)) := by
  induction l with
  | nil => simp [insertLevel, hx]
  | cons y ys ih =>
    by_cases h : x.strength < y.strength
    · rw [insertLevel, if_pos h]
      by_cases hy : y.strength = s
      · simp only [List.filter_cons, hy]
        rw [ih]
      · simp only [List.filter_cons]
        simp only [decide_eq_true_eq]
        rw [if_neg hy, if_neg hy, ih]
    · rw [insertLevel, if_neg h, List.filter_cons, List.filter_cons]
      simp only [decide_eq_true_eq]
      rw [if_neg hx]

/-- Inserting an element of strength `s` prepends it to the sublist of
strength-`s` elements: every element it is inserted after has strictly
larger strength. -/
theorem filter_insertLevel_of_eq (x : Level) (l : List Level) (s : ℕ)
    (hx : x.strength = s) :
    (insertLevel x l).filter (fun l => decide (l.strength = s)) =
      x :: l.filter (fun l => decide (l.strength = s)) := by
  induction l with
  | nil => simp [insertLevel, hx]
  | cons y ys ih =>
    by_cases h : x.strength < y.strength
    · have hy : y.strength ≠ s := by omega
      rw [insertLevel, if_pos h, List.filter_cons, List.filter_cons]
      simp only [decide_eq_true_eq]
      rw [if_neg hy, if_neg hy]
      exact ih
    · rw [insertLevel, if_neg h, List.filter_cons]
      simp only [decide_eq_true_eq]
      rw [if_pos hx]

/-- Stability of the embedded sort: the sublist of any fixed strength is
unchanged by sorting. -/
theorem filter_sortLevels (l : List Level) (s : ℕ) :
    (sortLevels l).filter (fun l => decide (l.strength = s)) =
      l.filter (fun l => decide (l.strength = s)) := by
  induction l with
  | nil => rfl
  | cons x xs ih =>
    show (insertLevel x (sortLevels xs)).filter _ = _
    by_cases hx : x.strength = s
    · rw [filter_insertLevel_of_eq x _ s hx, ih, List.filter_cons]
      simp only [decide_eq_true_eq]
      rw [if_pos hx]
    · rw [filter_insertLevel_of_ne x _ s hx, ih, List.filter_cons]
      simp only [decide_eq_true_eq]
      rw [if_neg hx]

/-- C8: the output of `findSupportResistance` is sorted descending by
strength, and within any fixed strength the levels appear in the order the
clusters were created (the clustering pass's output order) — the sort is
stable. -/
theorem fsr_sorted_and_stable (ohlcv : List OHLCV) (L : ℕ) (T : ℚ) :
    List.Sorted (fun a b : Level => b.strength ≤ a.strength)
      (findSupportResistance ohlcv L T) ∧
    ∀ s : ℕ,
      (findSupportResistance ohlcv L T).filter (fun l => decide (l.strength = s)) =
        (clusterLevels T (resLevels (ohlcv.map (fun d => d.high)) L ++
            supLevels (ohlcv.map (fun d => d.low)) L)).filter
          (fun l => decide (l.strength = s)) := by
  constructor
  · exact sorted_sortLevels _
  · intro s
    exact filter_sortLevels _ s

/-! ## Lemmas: strength accounting -/

/-- `firstIdx` returns an index inside the list. -/
theorem firstIdx_lt_length (p : Level → Bool) (l : List Level) (k : ℕ)
    (h : firstIdx p l = some k) : k < l.length := by
  induction l generalizing k with
  | nil => cases h
  | cons y ys ih =>
    by_cases hy : p y
    · rw [firstIdx, if_pos hy] at h
      cases h
      simp
    · rw [firstIdx, if_neg hy] at h
      cases hk : firstIdx p ys with
      | none => rw [hk] at h; cases h
      | some m =>
        rw [hk] at h
        simp only [Option.map_some'] at h
        cases h
        have := ih m hk
        simp
        omega

/-- Updating one element with a strength increment raises the strength sum
by exactly one. -/
theorem sum_updateAt_strength (f : Level → Level)
    (hf : ∀ l, (f l).strength = l.strength + 1) (l : List Level) (k : ℕ)
    (hk : k < l.length) :
    ((updateAt k f l).map (fun l => l.strength)).sum =
      ((l.map (fun l => l.strength)).sum) + 1 := by
  induction l generalizing k with
  | nil => simp at hk
  | cons y ys ih =>
    cases k with
    | zero =>
      simp only [updateAt, List.map_cons, List.sum_cons, hf y]
      omega
    | succ m =>
      simp only [updateAt, List.map_cons, List.sum_cons]
      rw [ih m (by simpa using hk)]
      omega

/-- One clustering step on a strength-1 candidate raises the strength sum
by exactly one (merge and push alike). -/
theorem sum_clusterStep (T : ℚ) (acc : List Level) (x : Level)
    (hx : x.strength = 1) :
    ((clusterStep T acc x).map (fun l => l.strength)).sum =
      ((acc.map (fun l => l.strength)).sum) + 1 := by
  unfold clusterStep
  cases hf : firstIdx (fun l => mergeCond T l.price x.price) acc with
  | some k =>
    exact sum_updateAt_strength _ (fun l => rfl) acc k (firstIdx_lt_length _ _ _ hf)
  | none => simp [hx]

/-- The clustering fold conserves strength: starting from `acc`, folding a
list of strength-1 candidates adds the candidate count to the strength sum. -/
theorem sum_foldl_clusterStep (T : ℚ) (ls : List Level) :
    ∀ acc : List Level, (∀ x ∈ ls, x.strength = 1) →
      ((List.foldl (clusterStep T) acc ls).map (fun l => l.strength)).sum =
        ((acc.map (fun l => l.strength)).sum) + ls.length := by
  induction ls with
  | nil => intro acc _; simp
  | cons x xs ih =>
    intro acc h
    rw [List.foldl_cons,
        ih (clusterStep T acc x) (fun y hy => h y (List.mem_cons_of_mem _ hy)),
        sum_clusterStep T acc x (h x (List.mem_cons_self _ _))]
    simp only [List.length_cons]
    omega

/-- Elements of an updated list are old elements or the image of one. -/
theorem mem_updateAt (f : Level → Level) (l : List Level) (k : ℕ) (z : Level)
    (hz : z ∈ updateAt k f l) : z ∈ l ∨ ∃ y ∈ l, z = f y := by
  induction l generalizing k with
  | nil => simp [updateAt] at hz
  | cons y ys ih =>
    cases k with
    | zero =>
      rcases List.mem_cons.mp hz with rfl | hz'
      · exact Or.inr ⟨y, List.mem_cons_self _ _, rfl⟩
      · exact Or.inl (List.mem_cons_of_mem _ hz')
    | succ m =>
      rcases List.mem_cons.mp hz with rfl | hz'
      · exact Or.inl (List.mem_cons_self _ _)
      · rcases ih m hz' with h | ⟨w, hw, rfl⟩
        · exact Or.inl (List.mem_cons_of_mem _ h)
        · exact Or.inr ⟨w, List.mem_cons_of_mem _ hw, rfl⟩

/-- The clustering fold keeps every strength at least 1 when every
incoming candidate's strength is at least 1. -/
theorem strength_pos_foldl_clusterStep (T : ℚ) (ls : List Level) :
    ∀ acc : List Level, (∀ x ∈ acc, 1 ≤ x.strength) →
      (∀ x ∈ ls, 1 ≤ x.strength) →
      ∀ z ∈ List.foldl (clusterStep T) acc ls, 1 ≤ z.strength := by
  induction ls with
  | nil => intro acc hacc _ z hz; exact hacc z hz
  | cons x xs ih =>
    intro acc hacc hls z hz
    refine ih (clusterStep T acc x) ?_ (fun y hy => hls y (List.mem_cons_of_mem _ hy)) z hz
    intro w hw
    unfold clusterStep at hw
    cases hf : firstIdx (fun l => mergeCond T l.price x.price) acc with
    | some k =>
      rw [hf] at hw
      rcases mem_updateAt _ acc k w hw with h | ⟨y, hy, rfl⟩
      · exact hacc w h
      · have := hacc y hy
        simp only
        omega
    | none =>
      rw [hf] at hw
      rcases List.mem_append.mp hw with h | h
      · exact hacc w h
      · have : w = x := by simpa using h
        subst this
        exact hls w (List.mem_cons_self _ _)

/-- Insertion preserves the strength sum. -/
theorem sum_insertLevel (x : Level) (l : List Level) :
    ((insertLevel x l).map (fun l => l.strength)).sum =
      x.strength + (l.map (fun l => l.strength)).sum := by
  induction l with
  | nil => simp [insertLevel]
  | cons y ys ih =>
    by_cases h : x.strength < y.strength
    · simp only [insertLevel, if_pos h, List.map_cons, List.sum_cons, ih]
      omega
    · simp only [insertLevel, if_neg h, List.map_cons, List.sum_cons]

/-- Sorting preserves the strength sum. -/
theorem sum_sortLevels (l : List Level) :
    ((sortLevels l).map (fun l => l.strength)).sum =
      (l.map (fun l => l.strength)).sum := by
  induction l with
  | nil => rfl
  | cons x xs ih =>
    show ((insertLevel x (sortLevels xs)).map _).sum = _
    rw [sum_insertLevel, ih, List.map_cons, List.sum_cons]

/-- Sorting preserves membership. -/
theorem mem_sortLevels (z : Level) (l : List Level) :
    z ∈ sortLevels l ↔ z ∈ l := by
  induction l with
  | nil => exact Iff.rfl
  | cons x xs ih =>
    show z ∈ insertLevel x (sortLevels xs) ↔ _
    rw [mem_insertLevel, ih, List.mem_cons]

/-- C9: the strength fields of the clusters returned by
`findSupportResistance` sum to the number of detected extremum candidates
(resistance plus support), and every returned cluster has strength at
least 1. -/
theorem fsr_strength_conservation (ohlcv : List OHLCV) (L : ℕ) (T : ℚ) :
    ((findSupportResistance ohlcv L T).map (fun l => l.strength)).sum =
      (resLevels (ohlcv.map (fun d => d.high)) L).length +
        (supLevels (ohlcv.map (fun d => d.low)) L).length ∧
    (findSupportResistance ohlcv L T).all (fun l => decide (1 ≤ l.strength)) = true := by
  have hstr1 : ∀ x ∈ resLevels (ohlcv.map (fun d => d.high)) L ++
      supLevels (ohlcv.map (fun d => d.low)) L, x.strength = 1 := by
    intro x hx
    rcases List.mem_append.mp hx with h | h
    · unfold resLevels at h
      rcases List.mem_map.mp h with ⟨i, _, rfl⟩
      rfl
    · unfold supLevels at h
      rcases List.mem_map.mp h with ⟨i, _, rfl⟩
      rfl
  constructor
  · show ((sortLevels (clusterLevels T _)).map _).sum = _
    rw [sum_sortLevels]
    unfold clusterLevels
    rw [sum_foldl_clusterStep T _ [] hstr1]
    simp [List.length_append]
  · rw [List.all_eq_true]
    intro z hz
    simp only [decide_eq_true_eq]
    have hz' : z ∈ clusterLevels T (resLevels (ohlcv.map (fun d => d.high)) L ++
        supLevels (ohlcv.map (fun d => d.low)) L) := by
      have := (mem_sortLevels z _).mp hz
      exact this
    exact strength_pos_foldl_clusterStep T _ [] (by simp)
      (fun x hx => le_of_eq (hstr1 x hx).symm) z hz'

/-! ## Lemmas: trend detection -/

/-- The most recent value of the modelled SMA: none with fewer samples
than the period, else the mean of the trailing window. -/
theorem calculateSMA_getLast (v : List ℚ) (p : ℕ) (hp : p ≠ 0) :
    (calculateSMA v p).getLast? =
      if v.length < p then none
      else some ((v.drop (v.length - p)).sum / (p : ℚ)) := by
  unfold calculateSMA
  rw [if_neg hp]
  by_cases h : v.length < p
  · rw [if_pos h]
    have h0 : v.length + 1 - p = 0 := by omega
    rw [h0]
    rfl
  · rw [if_neg h]
    have h2 : v.length + 1 - p = (v.length - p) + 1 := by omega
    rw [h2, List.range_succ, List.map_append, List.map_cons, List.map_nil,
        List.getLast?_concat,
        List.take_of_length_le (by rw [List.length_drop]; omega)]

/-- C2 (amended): with the default periods, `detectTrend` returns
"unknown" exactly when fewer than 50 closes are supplied (an SMA has no
defined value) **or** one of the two most recent SMA values equals 0 (the
JS falsy guard `!recentShort || !recentLong` also fires on the number 0);
otherwise it compares the trailing 20-mean with the trailing 50-mean:
greater → "bullish", smaller → "bearish", equal → "neutral". -/
theorem detectTrend_eq_amended (prices : List ℚ) :
    detectTrend prices 20 50 = amendedTrend prices := by
  unfold detectTrend amendedTrend
  rw [calculateSMA_getLast prices 20 (by norm_num),
      calculateSMA_getLast prices 50 (by norm_num)]
  by_cases h50 : prices.length < 50
  · by_cases h20 : prices.length < 20
    · rw [if_pos h50, if_pos h20, if_pos h50]
    · rw [if_pos h50, if_neg h20, if_pos h50]
  · rw [if_neg h50, if_neg (show ¬prices.length < 20 by omega), if_neg h50]
    norm_num

/-- Counterexample to C2 as stated: 40 closes at 1 followed by 10 at −1.
Both SMAs are defined — SMA(20) ends at 0 and SMA(50) at 3/5 — so the
claim requires "bearish" (0 < 3/5, and "unknown" only on undefined), but
the code's falsy guard sees `recentShort === 0` and returns "unknown". -/
theorem detectTrend_falsy_zero_counterexample :
    (calculateSMA (List.replicate 40 (1:ℚ) ++ List.replicate 10 (-1:ℚ)) 20).getLast? =
      some 0 ∧
    (calculateSMA (List.replicate 40 (1:ℚ) ++ List.replicate 10 (-1:ℚ)) 50).getLast? =
      some (3/5) ∧
    claimTrend (List.replicate 40 (1:ℚ) ++ List.replicate 10 (-1:ℚ)) 20 50 = "bearish" ∧
    detectTrend (List.replicate 40 (1:ℚ) ++ List.replicate 10 (-1:ℚ)) 20 50 = "unknown" := by
  have hlen : (List.replicate 40 (1:ℚ) ++ List.replicate 10 (-1:ℚ)).length = 50 := by
    simp
  have h20 : (calculateSMA (List.replicate 40 (1:ℚ) ++ List.replicate 10 (-1:ℚ)) 20).getLast? =
      some 0 := by
    rw [calculateSMA_getLast _ 20 (by norm_num), hlen, if_neg (by norm_num)]
    norm_num [List.drop_append_eq_append_drop, List.drop_replicate, List.sum_append,
      List.sum_replicate, nsmul_eq_mul]
  have h50 : (calculateSMA (List.replicate 40 (1:ℚ) ++ List.replicate 10 (-1:ℚ)) 50).getLast? =
      some (3/5) := by
    rw [calculateSMA_getLast _ 50 (by norm_num), hlen, if_neg (by norm_num)]
    norm_num [List.drop_append_eq_append_drop, List.drop_replicate, List.sum_append,
      List.sum_replicate, nsmul_eq_mul]
  refine ⟨h20, h50, ?_, ?_⟩
  · unfold claimTrend
    rw [h20, h50]
    norm_num
  · unfold detectTrend
    rw [h20, h50]
    norm_num

/-! ## Lemmas: indicator emptiness (C7) -/

/-- C7: for every positive period and every input shorter than the period,
the modelled SMA, EMA and RSI all return an empty sequence (and, being
total functions, raise nothing). -/
theorem indicators_empty_on_insufficient_data (p : ℕ) (values : List ℚ)
    (hp : 0 < p) (hlen : values.length < p) :
    calculateSMA values p = [] ∧ calculateEMA values p = [] ∧
      calculateRSI values p = [] := by
  refine ⟨?_, ?_, ?_⟩
  · unfold calculateSMA
    rw [if_neg (by omega)]
    have h0 : values.length + 1 - p = 0 := by omega
    rw [h0]
    rfl
  · unfold calculateEMA
    rw [if_pos (Or.inr hlen)]
  · simp only [calculateRSI]
    rw [if_neg (by omega), if_pos]
    rw [List.length_zipWith, List.length_drop]
    omega

/-- Witness for C7 at `p = 5` over a three-element sequence. -/
theorem indicators_empty_on_insufficient_data_witness :
    (0 < 5 ∧ ([1, 2, 3] : List ℚ).length < 5) ∧
      (calculateSMA [1, 2, 3] 5 = [] ∧ calculateEMA [1, 2, 3] 5 = [] ∧
        calculateRSI [1, 2, 3] 5 = []) :=
  ⟨⟨by norm_num, by norm_num⟩,
   indicators_empty_on_insufficient_data 5 [1, 2, 3] (by norm_num) (by norm_num)⟩

/-! ## Lemmas: price statistics -/

/-- With fewer than two candles the return series is empty. -/
theorem returns_nil_of_short (ohlcv : List OHLCV) (hlen : ohlcv.length < 2) :
    List.zipWith
      (fun close prev => JSNum.mul (JSNum.div (JSNum.sub close prev) prev) (JSNum.fin 100))
      ((ohlcv.map (fun d => JSNum.fin d.close)).drop 1)
      (ohlcv.map (fun d => JSNum.fin d.close)) = [] := by
  match ohlcv, hlen with
  | [], _ => rfl
  | [a], _ => rfl

/-- C10: with fewer than two candles `calculatePriceStats` does not fail:
the return series is empty, so the mean, standard deviation, Sharpe ratio
and win rate are all NaN (0/0 divisions through any `Math.sqrt` that maps
NaN to NaN), the maximum return is −∞ and the minimum return is +∞
(`Math.max()`/`Math.min()` of an empty spread). -/
theorem calculatePriceStats_short (sqrt : JSNum → JSNum) (ohlcv : List OHLCV)
    (hlen : ohlcv.length < 2) (hs : sqrt JSNum.nan = JSNum.nan) :
    (calculatePriceStats sqrt ohlcv).avgReturn = JSNum.nan ∧
    (calculatePriceStats sqrt ohlcv).stdDev = JSNum.nan ∧
    (calculatePriceStats sqrt ohlcv).sharpeRatio = JSNum.nan ∧
    (calculatePriceStats sqrt ohlcv).winRate = JSNum.nan ∧
    (calculatePriceStats sqrt ohlcv).maxReturn = JSNum.inf false ∧
    (calculatePriceStats sqrt ohlcv).minReturn = JSNum.inf true := by
  have hret := returns_nil_of_short ohlcv hlen
  simp only [calculatePriceStats, hret]
  refine ⟨?_, ?_, ?_, ?_, rfl, rfl⟩ <;>
    simp [JSNum.div, JSNum.mul, hs]

/-- Witness for C10 on the single-candle input. -/
theorem calculatePriceStats_short_witness :
    (([⟨1, 2, 1, 2, 3, 0⟩] : List OHLCV).length < 2 ∧ jsqrt JSNum.nan = JSNum.nan) ∧
      ((calculatePriceStats jsqrt [⟨1, 2, 1, 2, 3, 0⟩]).avgReturn = JSNum.nan ∧
       (calculatePriceStats jsqrt [⟨1, 2, 1, 2, 3, 0⟩]).stdDev = JSNum.nan ∧
       (calculatePriceStats jsqrt [⟨1, 2, 1, 2, 3, 0⟩]).sharpeRatio = JSNum.nan ∧
       (calculatePriceStats jsqrt [⟨1, 2, 1, 2, 3, 0⟩]).winRate = JSNum.nan ∧
       (calculatePriceStats jsqrt [⟨1, 2, 1, 2, 3, 0⟩]).maxReturn = JSNum.inf false ∧
       (calculatePriceStats jsqrt [⟨1, 2, 1, 2, 3, 0⟩]).minReturn = JSNum.inf true) :=
  ⟨⟨by norm_num, rfl⟩,
   calculatePriceStats_short jsqrt [⟨1, 2, 1, 2, 3, 0⟩] (by norm_num) rfl⟩

/-- Folding over a constant list from a fixed point of the step stays put. -/
theorem foldl_fixed (f : JSNum → JSNum → JSNum) (a x : JSNum) (hf : f a x = a) :
    ∀ m : ℕ, List.foldl f a (List.replicate m x) = a := by
  intro m
  induction m with
  | zero => rfl
  | succ k ih => rw [List.replicate_succ, List.foldl_cons, hf, ih]

/-- C6: on a constant-price candle sequence (all closes equal to some
nonzero `c`, length at least 2) the statistics are: average return 0,
standard deviation 0 (through any `Math.sqrt` mapping 0 to 0), win rate 0,
and a Sharpe ratio of NaN — the 0/0 division is preserved, not replaced by
a default. -/
theorem calculatePriceStats_const (sqrt : JSNum → JSNum) (ohlcv : List OHLCV)
    (c : ℚ) (hc : c ≠ 0) (hlen : 2 ≤ ohlcv.length)
    (hconst : ∀ d ∈ ohlcv, d.close = c)
    (hs : sqrt (JSNum.fin 0) = JSNum.fin 0) :
    (calculatePriceStats sqrt ohlcv).avgReturn = JSNum.fin 0 ∧
    (calculatePriceStats sqrt ohlcv).stdDev = JSNum.fin 0 ∧
    (calculatePriceStats sqrt ohlcv).winRate = JSNum.fin 0 ∧
    (calculatePriceStats sqrt ohlcv).sharpeRatio = JSNum.nan := by
  have hcl : ohlcv.map (fun d => JSNum.fin d.close) =
      List.replicate ohlcv.length (JSNum.fin c) := by
    rw [List.eq_replicate_iff]
    refine ⟨by simp, ?_⟩
    intro b hb
    rcases List.mem_map.mp hb with ⟨d, hd, rfl⟩
    rw [hconst d hd]
  have hf : JSNum.mul
      (JSNum.div (JSNum.sub (JSNum.fin c) (JSNum.fin c)) (JSNum.fin c))
      (JSNum.fin 100) = JSNum.fin 0 := by
    simp [JSNum.sub, JSNum.add, JSNum.neg, JSNum.div, JSNum.mul, hc]
  have hret : List.zipWith
      (fun close prev => JSNum.mul (JSNum.div (JSNum.sub close prev) prev) (JSNum.fin 100))
      ((ohlcv.map (fun d => JSNum.fin d.close)).drop 1)
      (ohlcv.map (fun d => JSNum.fin d.close)) =
      List.replicate (ohlcv.length - 1) (JSNum.fin 0) := by
    rw [hcl, List.drop_replicate, List.zipWith_replicate, hf]
    congr 1
    omega
  have hmne : ((ohlcv.length - 1 : ℕ) : ℚ) ≠ 0 := by
    rw [Nat.cast_ne_zero]
    omega
  have hsum : List.foldl JSNum.add (JSNum.fin 0)
      (List.replicate (ohlcv.length - 1) (JSNum.fin 0)) = JSNum.fin 0 :=
    foldl_fixed _ _ _ (by norm_num [JSNum.add]) _
  have havg : JSNum.div (JSNum.fin 0) (JSNum.fin ((ohlcv.length - 1 : ℕ) : ℚ)) =
      JSNum.fin 0 := by
    simp [JSNum.div, hmne]
  have hvar : List.foldl
      (fun a b => JSNum.add a (JSNum.mul (JSNum.sub b (JSNum.fin 0)) (JSNum.sub b (JSNum.fin 0))))
      (JSNum.fin 0) (List.replicate (ohlcv.length - 1) (JSNum.fin 0)) = JSNum.fin 0 :=
    foldl_fixed _ _ _ (by norm_num [JSNum.add, JSNum.sub, JSNum.neg, JSNum.mul]) _
  have hfil : (List.replicate (ohlcv.length - 1) (JSNum.fin 0)).filter
      (fun r => JSNum.lt (JSNum.fin 0) r) = [] := by
    rw [List.filter_replicate]
    norm_num [JSNum.lt]
  simp only [calculatePriceStats, hret, List.length_replicate, hsum, havg, hvar, hfil]
  refine ⟨trivial, hs, ?_, ?_⟩
  · norm_num [JSNum.div, JSNum.mul, hmne]
  · rw [hs]
    norm_num [JSNum.div, JSNum.mul]

/-- Witness for C6 on three candles closing at 5. -/
theorem calculatePriceStats_const_witness :
    ((5 : ℚ) ≠ 0 ∧ 2 ≤ ([⟨5, 5, 5, 5, 0, 0⟩, ⟨5, 5, 5, 5, 0, 1⟩, ⟨5, 5, 5, 5, 0, 2⟩] :
        List OHLCV).length ∧ jsqrt (JSNum.fin 0) = JSNum.fin 0) ∧
      ((calculatePriceStats jsqrt
          [⟨5, 5, 5, 5, 0, 0⟩, ⟨5, 5, 5, 5, 0, 1⟩, ⟨5, 5, 5, 5, 0, 2⟩]).avgReturn =
            JSNum.fin 0 ∧
       (calculatePriceStats jsqrt
          [⟨5, 5, 5, 5, 0, 0⟩, ⟨5, 5, 5, 5, 0, 1⟩, ⟨5, 5, 5, 5, 0, 2⟩]).stdDev =
            JSNum.fin 0 ∧
       (calculatePriceStats jsqrt
          [⟨5, 5, 5, 5, 0, 0⟩, ⟨5, 5, 5, 5, 0, 1⟩, ⟨5, 5, 5, 5, 0, 2⟩]).winRate =
            JSNum.fin 0 ∧
       (calculatePriceStats jsqrt
          [⟨5, 5, 5, 5, 0, 0⟩, ⟨5, 5, 5, 5, 0, 1⟩, ⟨5, 5, 5, 5, 0, 2⟩]).sharpeRatio =
            JSNum.nan) :=
  ⟨⟨by norm_num, by norm_num, by norm_num [jsqrt, ratSqrt?]⟩,
   calculatePriceStats_const jsqrt
     [⟨5, 5, 5, 5, 0, 0⟩, ⟨5, 5, 5, 5, 0, 1⟩, ⟨5, 5, 5, 5, 0, 2⟩] 5
     (by norm_num) (by norm_num) (by intro d hd; fin_cases hd <;> rfl)
     (by norm_num [jsqrt, ratSqrt?])⟩

/-- `Math.max(-Infinity, y) = y` for every JS number `y`. -/
theorem max_neginf (y : JSNum) : JSNum.max (JSNum.inf false) y = y := by
  cases y with
  | nan => rfl
  | inf b => cases b <;> rfl
  | fin q => rfl

/-- `Math.min(Infinity, y) = y` for every JS number `y`. -/
theorem min_posinf (y : JSNum) : JSNum.min (JSNum.inf true) y = y := by
  cases y with
  | nan => rfl
  | inf b => cases b <;> rfl
  | fin q => rfl

/-- `getD` through a `map`, at an in-range index. -/
theorem getD_map_close (f : OHLCV → JSNum) (l : List OHLCV) (i : ℕ) (d : JSNum)
    (h : i < l.length) :
    (l.map f).getD i d = f (l.getD i default) := by
  rw [List.getD_eq_getElem _ _ (by simpa using h), List.getElem_map,
      List.getD_eq_getElem _ _ h]

/-- Zipping a list against itself shifted by one equals mapping over the
index range. -/
theorem zipWith_shift_eq_range_map (f : JSNum → JSNum → JSNum) (d : JSNum) :
    ∀ (t : List JSNum) (a : JSNum),
      List.zipWith f t (a :: t) =
        (List.range t.length).map
          (fun i => f (t.getD i d) ((a :: t).getD i d)) := by
  intro t
  induction t with
  | nil => intro a; rfl
  | cons b t' ih =>
    intro a
    show f b a :: List.zipWith f t' (b :: t') = _
    rw [List.length_cons, List.range_succ_eq_map, List.map_cons, List.map_map, ih b]
    rfl

/-- The code's return series (`closes.slice(1)` zipped against `closes`)
equals the claim's index-based return series. -/
theorem returns_code_eq_spec (ohlcv : List OHLCV) :
    List.zipWith
      (fun close prev => JSNum.mul (JSNum.div (JSNum.sub close prev) prev) (JSNum.fin 100))
      ((ohlcv.map (fun d => JSNum.fin d.close)).drop 1)
      (ohlcv.map (fun d => JSNum.fin d.close)) =
    (List.range (ohlcv.length - 1)).map
      (fun i => JSNum.mul
        (JSNum.div
          (JSNum.sub (JSNum.fin ((ohlcv.getD (i + 1) default).close))
            (JSNum.fin ((ohlcv.getD i default).close)))
          (JSNum.fin ((ohlcv.getD i default).close)))
        (JSNum.fin 100)) := by
  cases ohlcv with
  | nil => rfl
  | cons a t =>
    show List.zipWith _ (t.map fun d => JSNum.fin d.close)
        (JSNum.fin a.close :: t.map fun d => JSNum.fin d.close) = _
    rw [zipWith_shift_eq_range_map _ (JSNum.fin (default : OHLCV).close)
        (t.map fun d => JSNum.fin d.close) (JSNum.fin a.close),
        List.length_map]
    have hlen : t.length = (a :: t).length - 1 := by simp
    rw [← hlen]
    apply List.map_congr_left
    intro i hi
    rw [List.mem_range] at hi
    have h1 : ((t.map fun d => JSNum.fin d.close)).getD i
        (JSNum.fin (default : OHLCV).close) = JSNum.fin ((t.getD i default).close) :=
      getD_map_close _ t i _ hi
    have h2 : ((JSNum.fin a.close :: t.map fun d => JSNum.fin d.close)).getD i
        (JSNum.fin (default : OHLCV).close) = JSNum.fin (((a :: t).getD i default).close) := by
      show (((a :: t).map fun d => JSNum.fin d.close)).getD i
        (JSNum.fin (default : OHLCV).close) = _
      exact getD_map_close _ (a :: t) i _ (by simp; omega)
    rw [h1, h2]
    rfl

/-- C5: for at least two candles, `calculatePriceStats` computes exactly the
specification's statistics — indexed percentage returns
rᵢ = (closeᵢ − closeᵢ₋₁)/closeᵢ₋₁·100, their mean, the population standard
deviation over the number of returns, Sharpe = mean/σ·√252, the win rate as
the percentage of strictly positive returns, and the extrema of the return
series — through any common `Math.sqrt`. -/
theorem calculatePriceStats_eq_spec (sqrt : JSNum → JSNum) (ohlcv : List OHLCV)
    (hlen : 2 ≤ ohlcv.length) :
    calculatePriceStats sqrt ohlcv = specPriceStats sqrt ohlcv := by
  have hret := returns_code_eq_spec ohlcv
  simp only [calculatePriceStats, specPriceStats, hret]
  obtain ⟨x, xs, hxs⟩ : ∃ x xs,
      (List.range (ohlcv.length - 1)).map
        (fun i => JSNum.mul
          (JSNum.div
            (JSNum.sub (JSNum.fin ((ohlcv.getD (i + 1) default).close))
              (JSNum.fin ((ohlcv.getD i default).close)))
            (JSNum.fin ((ohlcv.getD i default).close)))
          (JSNum.fin 100)) = x :: xs := by
    have h1 : 1 ≤ ohlcv.length - 1 := by omega
    cases hr : (List.range (ohlcv.length - 1)).map
        (fun i => JSNum.mul
          (JSNum.div
            (JSNum.sub (JSNum.fin ((ohlcv.getD (i + 1) default).close))
              (JSNum.fin ((ohlcv.getD i default).close)))
            (JSNum.fin ((ohlcv.getD i default).close)))
          (JSNum.fin 100)) with
    | nil =>
      have := congrArg List.length hr
      simp at this
      omega
    | cons y ys => exact ⟨y, ys, rfl⟩
  rw [hxs, Stats.mk.injEq]
  refine ⟨rfl, ?_, ?_, ?_, ?_, ?_⟩
  · rw [List.foldl_map]
  · rw [List.foldl_map]
  · rw [List.foldl_cons, max_neginf]
  · rw [List.foldl_cons, min_posinf]
  · rw [List.countP_eq_length_filter]

/-- Witness for C5 on two candles closing at 100 and 110, with the exact
square root realizing `Math.sqrt`. -/
theorem calculatePriceStats_eq_spec_witness :
    2 ≤ ([⟨100, 100, 100, 100, 1, 0⟩, ⟨110, 110, 110, 110, 1, 1⟩] : List OHLCV).length ∧
      calculatePriceStats jsqrt
          [⟨100, 100, 100, 100, 1, 0⟩, ⟨110, 110, 110, 110, 1, 1⟩] =
        specPriceStats jsqrt
          [⟨100, 100, 100, 100, 1, 0⟩, ⟨110, 110, 110, 110, 1, 1⟩] :=
  ⟨by norm_num,
   calculatePriceStats_eq_spec jsqrt
     [⟨100, 100, 100, 100, 1, 0⟩, ⟨110, 110, 110, 110, 1, 1⟩] (by norm_num)⟩

end BinanceTA
